import Mathlib

/-!
Verification of the combination-matching engine of `go-evdev-keyboard`
(`src/main.go`, package `keyboard`).

Go strings are modelled as lists of rune codepoints (`List Nat`); all key
names and combo specifiers in this library are ASCII.  Go's `map[string]T`
is modelled as an association list (for `bindings`) or a duplicate-free
list of keys (for the sets `pressed` and `fired`); the Go specification
leaves the iteration order of a `for k := range m` loop over a map
unspecified (and the runtime randomizes it), so wherever the source
iterates a map in an order-sensitive way the iteration order is passed
as an explicit parameter.  Callbacks (`BindingCallback`, i.e. `func()`)
are modelled as opaque identifiers (`Nat`); `HandleEvent` returns the
identifier of the callback it dispatches with `go cb()`, if any.
-/

namespace Keyboard

/-- A Go string: list of rune codepoints. -/
abbrev GoStr := List Nat

/-- Build a `GoStr` from a Lean string literal (for readable concrete inputs). -/
def gs (s : String) : GoStr := s.data.map Char.toNat

/-- Go `strings.ToUpper` on a single rune, restricted to ASCII (every key name and
combo token in this library is ASCII; Go's full Unicode mapping agrees on ASCII). -/
def runeToUpper (c : Nat) : Nat := if 97 ≤ c ∧ c ≤ 122 then c - 32 else c

/-- Go `strings.ToUpper` (ASCII fragment). -/
def goToUpper (s : GoStr) : GoStr := s.map runeToUpper

/-- Go `strings.Split(s, "+")`: split on the rune `'+'` (codepoint 43).
Like Go's `strings.Split` with a non-empty separator, the result is never empty. -/
def splitPlus : GoStr → List GoStr
  | [] => [[]]
  | c :: cs =>
    match splitPlus cs with
    | [] => [[]]
    | t :: ts => if c = 43 then [] :: t :: ts else (c :: t) :: ts

/-- Go `strings.Join(parts, "+")`. -/
def joinPlus : List GoStr → GoStr
  | [] => []
  | [t] => t
  | t :: t' :: ts => t ++ 43 :: joinPlus (t' :: ts)

/-- Go `strings.TrimPrefix(s, pre)`: drop `pre` from the front of `s` when it is
there, otherwise return `s` unchanged. -/
def trimPfx (pre s : GoStr) : GoStr :=
  if pre.isPrefixOf s then s.drop pre.length else s

/-- The eight key codes recognized by `isModifier` (src/main.go:216-225). -/
def modifierKeys : List GoStr :=
  [gs "KEY_LEFTCTRL", gs "KEY_RIGHTCTRL",
   gs "KEY_LEFTSHIFT", gs "KEY_RIGHTSHIFT",
   gs "KEY_LEFTALT", gs "KEY_RIGHTALT",
   gs "KEY_LEFTMETA", gs "KEY_RIGHTMETA"]

/-- The source's `isModifier` (src/main.go:216-225). -/
def isModifier (key : GoStr) : Bool := decide (key ∈ modifierKeys)

/-- The source's `modifierName` (src/main.go:229-234): trim `"KEY_"`, then `"LEFT"`, then `"RIGHT"`. -/
def modifierName (key : GoStr) : GoStr :=
  trimPfx (gs "RIGHT") (trimPfx (gs "LEFT") (trimPfx (gs "KEY_") key))

/-- The source's `keyName` (src/main.go:238-240): trim the `"KEY_"` front marker. -/
def keyName (key : GoStr) : GoStr := trimPfx (gs "KEY_") key

/-- The source's `normalizeCombo` (src/main.go:161-164): uppercase, split on `"+"`, rejoin. -/
def normalizeCombo (c : GoStr) : GoStr := joinPlus (splitPlus (goToUpper c))

example : gs "KEY_A" = [75, 69, 89, 95, 65] := by decide

example : isModifier (gs "KEY_LEFTCTRL") = true := by decide

example : modifierName (gs "KEY_LEFTCTRL") = gs "CTRL" := by decide

example : keyName (gs "KEY_T") = gs "T" := by decide

example : normalizeCombo (gs "leftctrl+t") = gs "LEFTCTRL+T" := by decide

/-- The source's `EventType` (src/main.go:16): `type EventType int`.  An `Int`, not an
enumeration, so values other than the three named constants exist. -/
abbrev EventType := Int

/-- The constant `Release` (src/main.go:20, `iota` value 0). -/
def Release : EventType := 0

/-- The constant `Press` (src/main.go:22). -/
def Press : EventType := 1

/-- The constant `Hold` (src/main.go:24). -/
def Hold : EventType := 2

/-- The source's `Event` (src/main.go:42-47).  The Go field `Type` is spelled `etype`
here because `Type` is reserved in Lean. -/
structure Event where
  Key : GoStr
  etype : EventType
  deriving DecidableEq, Repr

/-- The source's `Manager` (src/main.go:127-133).  `bindings` is `map[string]BindingCallback`
(an association list from normalized combo to callback identifier); `pressed`
and `fired` are `map[string]bool` used as sets (duplicate-free key lists);
the mutex only serializes access and has no observable state of its own. -/
structure Manager where
  bindings : List (GoStr × Nat)
  pressed : List GoStr
  fired : List GoStr
  suppressRepeats : Bool
  deriving DecidableEq, Repr

/-- The source's `NewManager` (src/main.go:136-142): empty maps, suppression off. -/
def NewManager : Manager :=
  { bindings := [], pressed := [], fired := [], suppressRepeats := false }

/-- The source's `Manager.SuppressRepeats` (src/main.go:146-150). -/
def SuppressRepeats (m : Manager) : Manager :=
  { m with suppressRepeats := true }

/-- Go map assignment `bs[k] = v`: replace the entry for `k`, or add one. -/
def mapInsert (bs : List (GoStr × Nat)) (k : GoStr) (v : Nat) : List (GoStr × Nat) :=
  (k, v) :: bs.filter (fun p => decide (p.1 ≠ k))

/-- Go map lookup `cb, ok := bs[k]`: `some v` when present, else `none`. -/
def mapLookup (bs : List (GoStr × Nat)) (k : GoStr) : Option Nat :=
  match bs with
  | [] => none
  | (k', v) :: rest => if k' = k then some v else mapLookup rest k

/-- The source's `Manager.RegisterBinding` (src/main.go:154-159): store the callback under
the `normalizeCombo` image of the specifier. -/
def RegisterBinding (m : Manager) (combo : GoStr) (cb : Nat) : Manager :=
  { m with bindings := mapInsert m.bindings (normalizeCombo combo) cb }

/-- Go set insertion `m.pressed[key] = true`. -/
def insertKey (s : List GoStr) (key : GoStr) : List GoStr :=
  if key ∈ s then s else s ++ [key]

/-- Go `delete(m.pressed, key)`. -/
def removeKey (s : List GoStr) (key : GoStr) : List GoStr :=
  s.filter (fun k => decide (k ≠ key))

/-- The last `+`-separated token of a combo string:
`parts := strings.Split(combo, "+"); parts[len(parts)-1]` (src/main.go:183-184).
`splitPlus` never returns `[]` (see `splitPlus_ne_nil`), so the
`.getD []` default is never taken. -/
def lastPart (c : GoStr) : GoStr := (splitPlus c).getLast?.getD []

/-- The `fired`-purging loop of the Release branch (src/main.go:181-187):
delete every combo whose last token equals `suffix`.  Deleting entries of a Go
map while ranging over it is permitted and visits each remaining entry once,
so the loop is exactly a filter. -/
def purgeFired (fired : List GoStr) (suffix : GoStr) : List GoStr :=
  fired.filter (fun combo => decide (lastPart combo ≠ suffix))

/-- The state-update phase of `HandleEvent` (src/main.go:176-189): Press
inserts the key into `pressed`; Release removes it and, when suppression is
on, purges `fired` of combos whose trailing token is the released key's name;
any other event type leaves the state alone. -/
def updateState (m : Manager) (ev : Event) : Manager :=
  if ev.etype = Press then
    { m with pressed := insertKey m.pressed ev.Key }
  else if ev.etype = Release then
    { m with pressed := removeKey m.pressed ev.Key,
             fired := if m.suppressRepeats then purgeFired m.fired (keyName ev.Key)
                      else m.fired }
  else m

/-- The candidate combo built on a non-modifier press (src/main.go:193-200):
canonical names of the modifiers of the pressed set, in the order `iter` in
which `for k := range m.pressed` happens to enumerate them, then the canonical
name of the pressed key, `+`-joined. -/
def candidateCombo (iter : List GoStr) (key : GoStr) : GoStr :=
  joinPlus ((iter.filter (fun k => isModifier k)).map modifierName ++ [keyName key])

/-- The source's `Manager.HandleEvent` (src/main.go:168-213).  `iter` is the order in which
the `for k := range m.pressed` loop at line 194 enumerates the pressed map
after the state update; the Go language specification leaves that order
unspecified (the runtime randomizes it), so it is a parameter here, intended
to range over the permutations of the updated pressed set.  The returned
`Option Nat` is the callback dispatched by `go cb()` at line 210, if any. -/
def HandleEvent (m : Manager) (ev : Event) (iter : List GoStr) : Manager × Option Nat :=
  let m1 := updateState m ev
  if ev.etype = Press ∧ isModifier ev.Key = false then
    let combo := candidateCombo iter ev.Key
    if m1.suppressRepeats then
      if combo ∈ m1.fired then (m1, none)
      else ({ m1 with fired := combo :: m1.fired }, mapLookup m1.bindings combo)
    else (m1, mapLookup m1.bindings combo)
  else (m1, none)

/-- Feed a list of events (each with the map-iteration order Go chose while
handling it) through `HandleEvent`; collect the final state and the dispatched
callbacks in order. -/
def runEvents (m : Manager) (evs : List (Event × List GoStr)) : Manager × List Nat :=
  match evs with
  | [] => (m, [])
  | (ev, it) :: rest =>
    let r := HandleEvent m ev it
    let s := runEvents r.1 rest
    (s.1, r.2.toList ++ s.2)

/-- The iteration orders a Go map range loop can produce: the permutations of
the key set. -/
def ValidIter (pressed iter : List GoStr) : Prop := iter.Perm pressed

example :
    HandleEvent NewManager { Key := gs "KEY_LEFTCTRL", etype := Press } [gs "KEY_LEFTCTRL"] =
      ({ NewManager with pressed := [gs "KEY_LEFTCTRL"] }, none) := by decide

example :
    (runEvents (RegisterBinding NewManager (gs "CTRL+T") 7)
      [({ Key := gs "KEY_LEFTCTRL", etype := Press }, [gs "KEY_LEFTCTRL"]),
       ({ Key := gs "KEY_T", etype := Press }, [gs "KEY_LEFTCTRL", gs "KEY_T"])]).2 = [7] := by
  decide

/-! String lemmas about the `strings` helpers. -/

/-- Go `strings.Split` with separator `"+"` never yields an empty slice, so the
index `parts[len(parts)-1]` at src/main.go:184 is always in bounds. -/
theorem splitPlus_ne_nil (s : GoStr) : splitPlus s ≠ [] := by
  induction s with
  | nil => simp [splitPlus]
  | cons c cs ih =>
    cases h : splitPlus cs with
    | nil => exact absurd h ih
    | cons t ts =>
      simp only [splitPlus, h]
      split <;> simp

/-- Splitting on `'+'` and rejoining with `'+'` is the identity. -/
theorem joinPlus_splitPlus (s : GoStr) : joinPlus (splitPlus s) = s := by
  induction s with
  | nil => simp [splitPlus, joinPlus]
  | cons c cs ih =>
    cases h : splitPlus cs with
    | nil => exact absurd h (splitPlus_ne_nil cs)
    | cons t ts =>
      rw [h] at ih
      simp only [splitPlus, h]
      by_cases hc : c = 43
      · subst hc
        simp [joinPlus, ih]
      · simp only [if_neg hc]
        cases ts with
        | nil => simpa [joinPlus] using congrArg (c :: ·) ih
        | cons t' ts' => simpa [joinPlus] using congrArg (c :: ·) ih

/-- The registration normalization is just `strings.ToUpper`: the split and rejoin cancel. -/
theorem normalizeCombo_eq_goToUpper (c : GoStr) : normalizeCombo c = goToUpper c := by
  simp [normalizeCombo, joinPlus_splitPlus]

/-- ASCII uppercasing of one rune is idempotent. -/
theorem runeToUpper_idem (c : Nat) : runeToUpper (runeToUpper c) = runeToUpper c := by
  unfold runeToUpper
  split
  · split <;> omega
  · rfl

/-- Go `strings.ToUpper` is idempotent. -/
theorem goToUpper_idem (s : GoStr) : goToUpper (goToUpper s) = goToUpper s := by
  unfold goToUpper
  rw [List.map_map]
  exact List.map_congr_left (fun c _ => runeToUpper_idem c)

/-- Splitting a plus-free string returns the one-element slice. -/
theorem splitPlus_no_plus (s : GoStr) (h : 43 ∉ s) : splitPlus s = [s] := by
  induction s with
  | nil => simp [splitPlus]
  | cons c cs ih =>
    have hc : c ≠ 43 := fun hc => h (hc ▸ List.mem_cons_self c cs)
    have hcs : 43 ∉ cs := fun hm => h (List.mem_cons_of_mem c hm)
    simp [splitPlus, ih hcs, hc]

/-- Splitting `p ++ "+" ++ r` when `p` is plus-free: `p` becomes the first
token and the rest splits on its own. -/
theorem splitPlus_append_plus (p r : GoStr) (h : 43 ∉ p) :
    splitPlus (p ++ 43 :: r) = p :: splitPlus r := by
  induction p with
  | nil =>
    cases hr : splitPlus r with
    | nil => exact absurd hr (splitPlus_ne_nil r)
    | cons t ts => simp [splitPlus, hr]
  | cons c cs ih =>
    have hc : c ≠ 43 := fun hc => h (hc ▸ List.mem_cons_self c cs)
    have hcs : 43 ∉ cs := fun hm => h (List.mem_cons_of_mem c hm)
    simp [splitPlus, ih hcs, hc]

/-- Splitting the join of nonempty plus-free parts recovers the parts, so the
trailing token of a candidate combo is the pressed key's canonical name. -/
theorem splitPlus_joinPlus (parts : List GoStr) (hne : parts ≠ [])
    (h : ∀ p ∈ parts, 43 ∉ p) : splitPlus (joinPlus parts) = parts := by
  induction parts with
  | nil => exact absurd rfl hne
  | cons p ps ih =>
    cases ps with
    | nil =>
      exact splitPlus_no_plus p (h p (List.mem_cons_self p []))
    | cons p' ps' =>
      have h1 : 43 ∉ p := h p (List.mem_cons_self p _)
      have h2 : ∀ q ∈ p' :: ps', 43 ∉ q := fun q hq => h q (List.mem_cons_of_mem p hq)
      simp only [joinPlus]
      rw [splitPlus_append_plus p (joinPlus (p' :: ps')) h1, ih (by simp) h2]

/-- The trailing token of a candidate combo is the canonical name of the
just-pressed key, provided that name is plus-free (every real evdev key code
is): the modifier names are drawn from the fixed plus-free vocabulary. -/
theorem lastPart_candidateCombo (iter : List GoStr) (key : GoStr)
    (h : 43 ∉ keyName key) : lastPart (candidateCombo iter key) = keyName key := by
  have hmods : ∀ p ∈ (iter.filter (fun k => isModifier k)).map modifierName, 43 ∉ p := by
    intro p hp
    obtain ⟨k, hk, rfl⟩ := List.mem_map.mp hp
    have hk' : isModifier k = true := List.of_mem_filter hk
    have hmem : k ∈ modifierKeys := by
      simpa [isModifier] using hk'
    have hmem' : k = gs "KEY_LEFTCTRL" ∨ k = gs "KEY_RIGHTCTRL" ∨
        k = gs "KEY_LEFTSHIFT" ∨ k = gs "KEY_RIGHTSHIFT" ∨
        k = gs "KEY_LEFTALT" ∨ k = gs "KEY_RIGHTALT" ∨
        k = gs "KEY_LEFTMETA" ∨ k = gs "KEY_RIGHTMETA" := by
      simpa [modifierKeys] using hmem
    rcases hmem' with rfl | rfl | rfl | rfl | rfl | rfl | rfl | rfl <;> decide
  have hall : ∀ p ∈ (iter.filter (fun k => isModifier k)).map modifierName ++ [keyName key],
      43 ∉ p := by
    intro p hp
    rcases List.mem_append.mp hp with hp | hp
    · exact hmods p hp
    · simpa using (List.mem_singleton.mp hp) ▸ h
  unfold lastPart candidateCombo
  rw [splitPlus_joinPlus _ (by simp) hall]
  simp

/-- A Press event for `k`. -/
def pressEv (k : GoStr) : Event := { Key := k, etype := Press }

/-- A Release event for `k`. -/
def releaseEv (k : GoStr) : Event := { Key := k, etype := Release }

/-- General idempotence of the registration normalization (the half of the
spec's algebraic property that the code does satisfy). -/
theorem normalizeCombo_idem (x : GoStr) :
    normalizeCombo (normalizeCombo x) = normalizeCombo x := by
  simp [normalizeCombo_eq_goToUpper, goToUpper_idem]

/-- C1: the claim fails on the code.  The token set {ALT, CTRL, T} gives the
stored key `"ALT+CTRL+T"` when registered as `"ALT+CTRL+T"`, while the
candidate built by `HandleEvent` for pressed modifiers LEFTCTRL, LEFTALT and
key T (enumerated by the map range loop as CTRL before ALT) is
`"CTRL+ALT+T"`: neither `normalizeCombo` nor the candidate construction
imposes a canonical token order, so the two sides differ and the registered
binding does not fire (no callback is dispatched on the T press). -/
theorem candidate_mismatches_registered_key :
    mapLookup (RegisterBinding NewManager (gs "ALT+CTRL+T") 5).bindings
        (gs "ALT+CTRL+T") = some 5 ∧
    candidateCombo [gs "KEY_LEFTCTRL", gs "KEY_LEFTALT", gs "KEY_T"] (gs "KEY_T") =
        gs "CTRL+ALT+T" ∧
    gs "CTRL+ALT+T" ≠ gs "ALT+CTRL+T" ∧
    (runEvents (RegisterBinding NewManager (gs "ALT+CTRL+T") 5)
        [(pressEv (gs "KEY_LEFTCTRL"), []),
         (pressEv (gs "KEY_LEFTALT"), []),
         (pressEv (gs "KEY_T"),
          [gs "KEY_LEFTCTRL", gs "KEY_LEFTALT", gs "KEY_T"])]).2 = [] ∧
    (runEvents (RegisterBinding NewManager (gs "ALT+CTRL+T") 5)
        [(pressEv (gs "KEY_LEFTCTRL"), []),
         (pressEv (gs "KEY_LEFTALT"), [])]).1.pressed =
        [gs "KEY_LEFTCTRL", gs "KEY_LEFTALT"] := by
  refine ⟨by decide, by decide, by decide, by decide, by decide⟩

/-- C2: the claim fails on the code.  `normalizeCombo` only uppercases (the
split on `"+"` and rejoin cancel): registering `"leftctrl+t"` stores the key
`"LEFTCTRL+T"`, not the claimed canonical form `"CTRL+T"` with the LEFT
qualifier stripped; and registering `"t+ctrl"` stores `"T+CTRL"`, with the
non-modifier token first, not last. -/
theorem registered_key_not_canonicalized :
    (RegisterBinding NewManager (gs "leftctrl+t") 3).bindings =
        [(gs "LEFTCTRL+T", 3)] ∧
    gs "LEFTCTRL+T" ≠ gs "CTRL+T" ∧
    (RegisterBinding NewManager (gs "t+ctrl") 4).bindings = [(gs "T+CTRL", 4)] ∧
    gs "T+CTRL" ≠ gs "CTRL+T" := by
  refine ⟨by decide, by decide, by decide, by decide⟩

/-- C3: the commutativity half of the claim fails on the code at the spec's
own example pair: `normalizeCombo` keeps the token order of its input, so
`normalizeCombo "CTRL+ALT+T"` and `normalizeCombo "ALT+CTRL+T"` are the two
distinct inputs uppercased, not equal.  (The idempotence half does hold:
`normalizeCombo_idem`.) -/
theorem normalize_not_order_invariant :
    normalizeCombo (gs "CTRL+ALT+T") = gs "CTRL+ALT+T" ∧
    normalizeCombo (gs "ALT+CTRL+T") = gs "ALT+CTRL+T" ∧
    normalizeCombo (gs "CTRL+ALT+T") ≠ normalizeCombo (gs "ALT+CTRL+T") := by
  refine ⟨by decide, by decide, by decide⟩

/-- C4: the claim fails on the code.  With suppression on and `"CTRL+ALT+T"`
registered, the sequence [press CTRL, press ALT, press T, press T] dispatches
ZERO callbacks when the `for k := range m.pressed` loop happens to enumerate
LEFTALT before LEFTCTRL on both T presses (a legal iteration order: Go leaves
map range order unspecified): the candidate is then `"ALT+CTRL+T"`, which
never matches the stored key `"CTRL+ALT+T"`.  The same order after
[release T, press T] again dispatches nothing, so neither the
"exactly once" half nor the "fires again after release" half holds.  The
first conjunct shows the iteration order used is a permutation of the pressed
set `[KEY_LEFTCTRL, KEY_LEFTALT, KEY_T]` that each T press iterates (third
conjunct). -/
theorem suppression_scenario_fires_zero_times :
    ValidIter [gs "KEY_LEFTCTRL", gs "KEY_LEFTALT", gs "KEY_T"]
        [gs "KEY_LEFTALT", gs "KEY_LEFTCTRL", gs "KEY_T"] ∧
    (runEvents (RegisterBinding (SuppressRepeats NewManager) (gs "CTRL+ALT+T") 7)
        [(pressEv (gs "KEY_LEFTCTRL"), []),
         (pressEv (gs "KEY_LEFTALT"), []),
         (pressEv (gs "KEY_T"), [gs "KEY_LEFTALT", gs "KEY_LEFTCTRL", gs "KEY_T"]),
         (pressEv (gs "KEY_T"), [gs "KEY_LEFTALT", gs "KEY_LEFTCTRL", gs "KEY_T"])]).2
      = [] ∧
    ((runEvents (RegisterBinding (SuppressRepeats NewManager) (gs "CTRL+ALT+T") 7)
        [(pressEv (gs "KEY_LEFTCTRL"), []),
         (pressEv (gs "KEY_LEFTALT"), []),
         (pressEv (gs "KEY_T"), [gs "KEY_LEFTALT", gs "KEY_LEFTCTRL", gs "KEY_T"]),
         (pressEv (gs "KEY_T"), [gs "KEY_LEFTALT", gs "KEY_LEFTCTRL", gs "KEY_T"])]).1).pressed
      = [gs "KEY_LEFTCTRL", gs "KEY_LEFTALT", gs "KEY_T"] ∧
    (runEvents (RegisterBinding (SuppressRepeats NewManager) (gs "CTRL+ALT+T") 7)
        [(pressEv (gs "KEY_LEFTCTRL"), []),
         (pressEv (gs "KEY_LEFTALT"), []),
         (pressEv (gs "KEY_T"), [gs "KEY_LEFTALT", gs "KEY_LEFTCTRL", gs "KEY_T"]),
         (pressEv (gs "KEY_T"), [gs "KEY_LEFTALT", gs "KEY_LEFTCTRL", gs "KEY_T"]),
         (releaseEv (gs "KEY_T"), []),
         (pressEv (gs "KEY_T"), [gs "KEY_LEFTALT", gs "KEY_LEFTCTRL", gs "KEY_T"])]).2
      = [] := by
  refine ⟨List.Perm.swap (gs "KEY_LEFTCTRL") (gs "KEY_LEFTALT") [gs "KEY_T"],
    by decide, by decide, by decide⟩

/-- Membership in a Go set after insertion. -/
theorem mem_insertKey (s : List GoStr) (key k : GoStr) :
    k ∈ insertKey s key ↔ k ∈ s ∨ k = key := by
  unfold insertKey
  split
  · next h =>
    constructor
    · exact Or.inl
    · rintro (h' | rfl)
      · exact h'
      · exact h
  · simp

/-- The inserted key is a member. -/
theorem mem_insertKey_self (s : List GoStr) (key : GoStr) : key ∈ insertKey s key :=
  (mem_insertKey s key key).mpr (Or.inr rfl)

/-- The `Release` and `Press` constants are distinct integers. -/
theorem release_ne_press : ¬ (Release = Press) := by decide

/-- C7: a Hold (auto-repeat) event is a complete no-op: the returned state is
the input state (same `pressed`, `fired`, `bindings`, `suppressRepeats`) and
no callback is dispatched, whatever the prior state and iteration order. -/
theorem hold_is_noop (m : Manager) (ev : Event) (iter : List GoStr)
    (h : ev.etype = Hold) : HandleEvent m ev iter = (m, none) := by
  have h1 : ¬ ev.etype = Press := by rw [h]; decide
  have h2 : ¬ ev.etype = Release := by rw [h]; decide
  simp [HandleEvent, updateState, h1, h2]

/-- Witness for `hold_is_noop` at a concrete state and event. -/
theorem hold_is_noop_witness :
    HandleEvent { NewManager with pressed := [gs "KEY_A"] }
        { Key := gs "KEY_A", etype := Hold } [gs "KEY_A"] =
      ({ NewManager with pressed := [gs "KEY_A"] }, none) :=
  hold_is_noop { NewManager with pressed := [gs "KEY_A"] }
    { Key := gs "KEY_A", etype := Hold } [gs "KEY_A"] rfl

/-- C9: `HandleEvent` is total.  An event whose `EventType` is none of
`Release`, `Press`, `Hold` (the Go type is `int`, so such values exist)
leaves the whole state unchanged and dispatches nothing; a Release for a key
not in the pressed set leaves `pressed` unchanged and dispatches nothing
(Go's `delete` on an absent key is a no-op); and the one indexing operation
in the source, `parts[len(parts)-1]` on the result of `strings.Split`, is
always in bounds because the split is never empty.  In this embedding
`HandleEvent` is a total function, so no input makes it fail. -/
theorem handleEvent_total_unknown_noop :
    (∀ (m : Manager) (ev : Event) (iter : List GoStr),
        ¬ ev.etype = Release → ¬ ev.etype = Press → ¬ ev.etype = Hold →
        HandleEvent m ev iter = (m, none)) ∧
    (∀ (m : Manager) (k : GoStr) (iter : List GoStr),
        k ∉ m.pressed →
        (HandleEvent m (releaseEv k) iter).1.pressed = m.pressed ∧
        (HandleEvent m (releaseEv k) iter).2 = none) ∧
    (∀ s : GoStr, splitPlus s ≠ []) := by
  refine ⟨?_, ?_, splitPlus_ne_nil⟩
  · intro m ev iter h0 h1 _
    simp [HandleEvent, updateState, h0, h1]
  · intro m k iter hk
    have hfil : removeKey m.pressed k = m.pressed := by
      refine List.filter_eq_self.mpr ?_
      intro a ha
      exact decide_eq_true (fun h => hk (h ▸ ha))
    constructor
    · simp [HandleEvent, updateState, releaseEv, release_ne_press, hfil]
    · simp [HandleEvent, updateState, releaseEv, release_ne_press]

/-- Witness for `handleEvent_total_unknown_noop`: an event with `EventType` 5
is a no-op, and releasing `KEY_B` when only `KEY_A` is pressed keeps the
pressed set. -/
theorem handleEvent_total_unknown_noop_witness :
    HandleEvent NewManager { Key := gs "KEY_A", etype := (5 : Int) } [] =
        (NewManager, none) ∧
    (HandleEvent { NewManager with pressed := [gs "KEY_A"] }
        (releaseEv (gs "KEY_B")) []).1.pressed = [gs "KEY_A"] := by
  refine ⟨handleEvent_total_unknown_noop.1 NewManager _ [] (by decide) (by decide)
      (by decide), ?_⟩
  exact (handleEvent_total_unknown_noop.2.1 { NewManager with pressed := [gs "KEY_A"] }
      (gs "KEY_B") [] (by decide)).1

/-- C10: when suppression is on and the candidate combo is already in the
fired set, `HandleEvent` returns before the registry lookup — no callback,
`fired`, `bindings` and the flag untouched — but the pressed key HAS been
inserted into the pressed set by the earlier update phase. -/
theorem suppressed_press_still_inserts (m : Manager) (ev : Event) (iter : List GoStr)
    (h1 : ev.etype = Press) (h2 : isModifier ev.Key = false)
    (h3 : m.suppressRepeats = true)
    (h4 : candidateCombo iter ev.Key ∈ m.fired) :
    HandleEvent m ev iter = ({ m with pressed := insertKey m.pressed ev.Key }, none) := by
  simp [HandleEvent, updateState, h1, h2, h3, h4]

/-- Witness for `suppressed_press_still_inserts`: pressing T while `"T"` is
already in the fired set inserts `KEY_T` but dispatches nothing. -/
theorem suppressed_press_still_inserts_witness :
    isModifier (gs "KEY_T") = false ∧
    HandleEvent { NewManager with suppressRepeats := true, fired := [gs "T"] }
        (pressEv (gs "KEY_T")) [] =
      ({ NewManager with
          suppressRepeats := true, fired := [gs "T"], pressed := [gs "KEY_T"] }, none) := by
  refine ⟨by decide, ?_⟩
  have := suppressed_press_still_inserts
    { NewManager with suppressRepeats := true, fired := [gs "T"] }
    (pressEv (gs "KEY_T")) [] rfl (by decide) rfl (by decide)
  simpa [NewManager, insertKey] using this

/-- C8: pressing a non-modifier key whose candidate combo has no registry
entry dispatches no callback (and cannot fail: see
`handleEvent_total_unknown_noop`), still inserts the key into the pressed
set, and — when suppression is enabled — leaves the candidate combo recorded
in the fired set whether or not a binding exists for it. -/
theorem unregistered_combo_no_callback (m : Manager) (ev : Event) (iter : List GoStr)
    (h1 : ev.etype = Press) (h2 : isModifier ev.Key = false) :
    (mapLookup m.bindings (candidateCombo iter ev.Key) = none →
        (HandleEvent m ev iter).2 = none) ∧
    ev.Key ∈ (HandleEvent m ev iter).1.pressed ∧
    (m.suppressRepeats = true →
        candidateCombo iter ev.Key ∈ (HandleEvent m ev iter).1.fired) := by
  by_cases hs : m.suppressRepeats = true
  · by_cases hf : candidateCombo iter ev.Key ∈ m.fired
    · rw [suppressed_press_still_inserts m ev iter h1 h2 hs hf]
      exact ⟨fun _ => rfl, mem_insertKey_self _ _, fun _ => hf⟩
    · refine ⟨?_, ?_, ?_⟩ <;>
        simp [HandleEvent, updateState, h1, h2, hs, hf, mem_insertKey_self]
  · refine ⟨?_, ?_, ?_⟩
    · intro hlook
      simp [HandleEvent, updateState, h1, h2, hs, hlook]
    · simp [HandleEvent, updateState, h1, h2, hs, mem_insertKey_self]
    · intro h; exact absurd h hs

/-- Witness for `unregistered_combo_no_callback`: pressing A with CTRL held
and nothing registered dispatches nothing, records `"CTRL+A"` in the fired
set, and inserts `KEY_A`. -/
theorem unregistered_combo_no_callback_witness :
    isModifier (gs "KEY_A") = false ∧
    mapLookup ({ NewManager with
        suppressRepeats := true, pressed := [gs "KEY_LEFTCTRL"] } : Manager).bindings
        (candidateCombo [gs "KEY_LEFTCTRL", gs "KEY_A"] (gs "KEY_A")) = none ∧
    (HandleEvent
        { NewManager with suppressRepeats := true, pressed := [gs "KEY_LEFTCTRL"] }
        (pressEv (gs "KEY_A")) [gs "KEY_LEFTCTRL", gs "KEY_A"]).2 = none ∧
    gs "KEY_A" ∈ (HandleEvent
        { NewManager with suppressRepeats := true, pressed := [gs "KEY_LEFTCTRL"] }
        (pressEv (gs "KEY_A")) [gs "KEY_LEFTCTRL", gs "KEY_A"]).1.pressed ∧
    candidateCombo [gs "KEY_LEFTCTRL", gs "KEY_A"] (gs "KEY_A") ∈
      (HandleEvent
        { NewManager with suppressRepeats := true, pressed := [gs "KEY_LEFTCTRL"] }
        (pressEv (gs "KEY_A")) [gs "KEY_LEFTCTRL", gs "KEY_A"]).1.fired := by
  have h := unregistered_combo_no_callback
    { NewManager with suppressRepeats := true, pressed := [gs "KEY_LEFTCTRL"] }
    (pressEv (gs "KEY_A")) [gs "KEY_LEFTCTRL", gs "KEY_A"] rfl (by decide)
  exact ⟨by decide, by decide, h.1 (by decide), h.2.1, h.2.2 rfl⟩

/-- A string free of the `'+'` separator.  Every real evdev key code name
(`KEY_A`, `KEY_LEFTCTRL`, ...) satisfies this; a key name containing `'+'`
would be misparsed by the trailing-token logic of src/main.go:183-184. -/
def NoPlus (s : GoStr) : Prop := 43 ∉ s

/-- The FiredSet invariant of the spec: every fired combo's trailing token is
the canonical name of some currently pressed key; and the fired set is only
populated while suppression is enabled (the flag is never cleared, so a
nonempty fired set implies the flag). -/
def Inv (m : Manager) : Prop :=
  (∀ c ∈ m.fired, ∃ k ∈ m.pressed, keyName k = lastPart c) ∧
  (m.suppressRepeats = false → m.fired = [])

/-- Trimming the KEY_ marker cannot introduce a plus. -/
theorem noPlus_keyName (key : GoStr) (h : 43 ∉ key) : 43 ∉ keyName key := by
  unfold keyName trimPfx
  split
  · exact fun hm => h (List.drop_subset _ _ hm)
  · exact h

/-- A fresh manager satisfies the invariant. -/
theorem inv_newManager : Inv NewManager :=
  ⟨fun c hc => absurd hc (List.not_mem_nil c), fun _ => rfl⟩

/-- The state produced by a Press event. -/
theorem handleEvent_fst_press_abortOrPlain (m : Manager) (ev : Event)
    (iter : List GoStr) (hp : ev.etype = Press)
    (h : isModifier ev.Key = true ∨ m.suppressRepeats = false ∨
         candidateCombo iter ev.Key ∈ m.fired) :
    (HandleEvent m ev iter).1 = { m with pressed := insertKey m.pressed ev.Key } := by
  rcases h with h | h | h
  · have hmod : ¬ isModifier ev.Key = false := by simp [h]
    simp [HandleEvent, updateState, hp, hmod]
  · by_cases hmod : isModifier ev.Key = false
    · simp [HandleEvent, updateState, hp, hmod, h]
    · simp [HandleEvent, updateState, hp, hmod]
  · by_cases hmod : isModifier ev.Key = false
    · by_cases hs : m.suppressRepeats = true
      · simp [HandleEvent, updateState, hp, hmod, hs, h]
      · simp [HandleEvent, updateState, hp, hmod, hs]
    · simp [HandleEvent, updateState, hp, hmod]

/-- The state produced by a suppressed non-modifier Press that records a new
candidate combo. -/
theorem handleEvent_fst_press_record (m : Manager) (ev : Event)
    (iter : List GoStr) (hp : ev.etype = Press) (hmod : isModifier ev.Key = false)
    (hs : m.suppressRepeats = true) (hf : candidateCombo iter ev.Key ∉ m.fired) :
    (HandleEvent m ev iter).1 =
      { m with
          pressed := insertKey m.pressed ev.Key,
          fired := candidateCombo iter ev.Key :: m.fired } := by
  simp [HandleEvent, updateState, hp, hmod, hs, hf]

/-- The state produced by a Release event. -/
theorem handleEvent_fst_release (m : Manager) (ev : Event) (iter : List GoStr)
    (hr : ev.etype = Release) :
    (HandleEvent m ev iter).1 =
      { m with
          pressed := removeKey m.pressed ev.Key,
          fired := if m.suppressRepeats then purgeFired m.fired (keyName ev.Key)
                   else m.fired } := by
  simp [HandleEvent, updateState, hr, release_ne_press]

/-- Any other event type returns the state unchanged. -/
theorem handleEvent_fst_other (m : Manager) (ev : Event) (iter : List GoStr)
    (hp : ¬ ev.etype = Press) (hr : ¬ ev.etype = Release) :
    (HandleEvent m ev iter).1 = m := by
  simp [HandleEvent, updateState, hp, hr]

/-- The invariant survives a Press event whose key name is plus-free. -/
theorem inv_press (m : Manager) (ev : Event) (iter : List GoStr)
    (hm : Inv m) (hkey : NoPlus ev.Key) (hp : ev.etype = Press) :
    Inv (HandleEvent m ev iter).1 := by
  by_cases hrec : isModifier ev.Key = false ∧ m.suppressRepeats = true ∧
      candidateCombo iter ev.Key ∉ m.fired
  · rw [handleEvent_fst_press_record m ev iter hp hrec.1 hrec.2.1 hrec.2.2]
    constructor
    · intro c hc
      rcases List.mem_cons.mp hc with rfl | hc'
      · exact ⟨ev.Key, mem_insertKey_self _ _,
          (lastPart_candidateCombo iter ev.Key (noPlus_keyName _ hkey)).symm⟩
      · obtain ⟨k, hk, he⟩ := hm.1 c hc'
        exact ⟨k, (mem_insertKey _ _ _).mpr (Or.inl hk), he⟩
    · intro h
      exact absurd (h ▸ hrec.2.1) (by simp)
  · have h' : isModifier ev.Key = true ∨ m.suppressRepeats = false ∨
        candidateCombo iter ev.Key ∈ m.fired := by
      by_cases h1 : isModifier ev.Key = false
      · by_cases h2 : m.suppressRepeats = true
        · by_cases h3 : candidateCombo iter ev.Key ∈ m.fired
          · exact Or.inr (Or.inr h3)
          · exact absurd ⟨h1, h2, h3⟩ hrec
        · exact Or.inr (Or.inl (by simpa using h2))
      · exact Or.inl (by simpa using h1)
    rw [handleEvent_fst_press_abortOrPlain m ev iter hp h']
    constructor
    · intro c hc
      obtain ⟨k, hk, he⟩ := hm.1 c hc
      exact ⟨k, (mem_insertKey _ _ _).mpr (Or.inl hk), he⟩
    · exact hm.2

/-- The invariant survives a Release event. -/
theorem inv_release (m : Manager) (ev : Event) (iter : List GoStr)
    (hm : Inv m) (hr : ev.etype = Release) :
    Inv (HandleEvent m ev iter).1 := by
  rw [handleEvent_fst_release m ev iter hr]
  by_cases hs : m.suppressRepeats = true
  · rw [if_pos hs]
    constructor
    · intro c hc
      have hmem : c ∈ m.fired := List.mem_of_mem_filter hc
      have hlast : lastPart c ≠ keyName ev.Key := by
        simpa using List.of_mem_filter hc
      obtain ⟨k, hk, he⟩ := hm.1 c hmem
      refine ⟨k, List.mem_filter.mpr ⟨hk, decide_eq_true ?_⟩, he⟩
      intro hkk
      exact hlast (by rw [← he, hkk])
    · intro h
      exact absurd (h ▸ hs) (by simp)
  · have hsf : m.suppressRepeats = false := by simpa using hs
    have hemp : m.fired = [] := hm.2 hsf
    rw [if_neg hs]
    constructor
    · intro c hc
      rw [hemp] at hc
      exact absurd hc (List.not_mem_nil c)
    · intro _
      exact hemp

/-- C5: the FiredSet invariant is preserved by every operation.  A fresh
manager satisfies it; `RegisterBinding` and `SuppressRepeats` preserve it;
`HandleEvent` preserves it for any event whose key name is free of the `'+'`
separator (true of every evdev key code).  Moreover, on a Release event
every fired combo whose trailing token equals the released key's canonical
name is removed, and every fired combo whose trailing token differs is
retained, regardless of which modifiers are held. -/
theorem fired_inv_preserved (m : Manager) (ev : Event) (iter : List GoStr)
    (hm : Inv m) (hkey : NoPlus ev.Key) :
    Inv NewManager ∧
    (∀ combo cb, Inv (RegisterBinding m combo cb)) ∧
    Inv (SuppressRepeats m) ∧
    Inv (HandleEvent m ev iter).1 ∧
    (ev.etype = Release → ∀ c ∈ m.fired, lastPart c = keyName ev.Key →
        c ∉ (HandleEvent m ev iter).1.fired) ∧
    (ev.etype = Release → ∀ c ∈ m.fired, lastPart c ≠ keyName ev.Key →
        c ∈ (HandleEvent m ev iter).1.fired) := by
  refine ⟨inv_newManager, ?_, ?_, ?_, ?_, ?_⟩
  · intro combo cb
    exact ⟨hm.1, hm.2⟩
  · exact ⟨hm.1, fun h => absurd h (by simp [SuppressRepeats])⟩
  · by_cases hp : ev.etype = Press
    · exact inv_press m ev iter hm hkey hp
    · by_cases hr : ev.etype = Release
      · exact inv_release m ev iter hm hr
      · rw [handleEvent_fst_other m ev iter hp hr]
        exact hm
  · intro hr c hc hlast
    rw [handleEvent_fst_release m ev iter hr]
    by_cases hs : m.suppressRepeats = true
    · rw [if_pos hs]
      intro hmem
      have : lastPart c ≠ keyName ev.Key := by
        simpa using List.of_mem_filter hmem
      exact this hlast
    · have hemp : m.fired = [] := hm.2 (by simpa using hs)
      rw [hemp] at hc
      exact absurd hc (List.not_mem_nil c)
  · intro hr c hc hlast
    rw [handleEvent_fst_release m ev iter hr]
    by_cases hs : m.suppressRepeats = true
    · rw [if_pos hs]
      exact List.mem_filter.mpr ⟨hc, decide_eq_true hlast⟩
    · rw [if_neg hs]
      exact hc

/-- Witness for `fired_inv_preserved`: a manager with `"CTRL+T"` fired while
`KEY_T` is pressed satisfies the invariant, and releasing `KEY_T` purges the
fired combo. -/
theorem fired_inv_preserved_witness :
    Inv { NewManager with
            suppressRepeats := true, pressed := [gs "KEY_LEFTCTRL", gs "KEY_T"],
            fired := [gs "CTRL+T"] } ∧
    NoPlus (gs "KEY_T") ∧
    gs "CTRL+T" ∉ (HandleEvent
        { NewManager with
            suppressRepeats := true, pressed := [gs "KEY_LEFTCTRL", gs "KEY_T"],
            fired := [gs "CTRL+T"] } (releaseEv (gs "KEY_T")) []).1.fired := by
  have hinv : Inv { NewManager with
      suppressRepeats := true, pressed := [gs "KEY_LEFTCTRL", gs "KEY_T"],
      fired := [gs "CTRL+T"] } := by
    constructor
    · intro c hc
      refine ⟨gs "KEY_T", by decide, ?_⟩
      have : c = gs "CTRL+T" := by simpa using hc
      rw [this]
      decide
    · intro h
      exact absurd h (by decide)
  have hnp : NoPlus (gs "KEY_T") := by unfold NoPlus; decide
  refine ⟨hinv, hnp, ?_⟩
  have h := fired_inv_preserved { NewManager with
      suppressRepeats := true, pressed := [gs "KEY_LEFTCTRL", gs "KEY_T"],
      fired := [gs "CTRL+T"] } (releaseEv (gs "KEY_T")) [] hinv hnp
  exact h.2.2.2.2.1 rfl (gs "CTRL+T") (by decide) (by decide)

/-- The `Press` and `Release` constants are distinct integers. -/
theorem press_ne_release : ¬ (Press = Release) := by decide

/-- The pressed set after one event: Press inserts, Release removes, anything
else leaves it alone — independent of the combo/firing phase. -/
theorem pressed_handleEvent (m : Manager) (ev : Event) (iter : List GoStr) :
    (HandleEvent m ev iter).1.pressed =
      if ev.etype = Press then insertKey m.pressed ev.Key
      else if ev.etype = Release then removeKey m.pressed ev.Key
      else m.pressed := by
  by_cases hp : ev.etype = Press
  · rw [if_pos hp]
    by_cases hrec : isModifier ev.Key = false ∧ m.suppressRepeats = true ∧
        candidateCombo iter ev.Key ∉ m.fired
    · rw [handleEvent_fst_press_record m ev iter hp hrec.1 hrec.2.1 hrec.2.2]
    · have h' : isModifier ev.Key = true ∨ m.suppressRepeats = false ∨
          candidateCombo iter ev.Key ∈ m.fired := by
        by_cases h1 : isModifier ev.Key = false
        · by_cases h2 : m.suppressRepeats = true
          · by_cases h3 : candidateCombo iter ev.Key ∈ m.fired
            · exact Or.inr (Or.inr h3)
            · exact absurd ⟨h1, h2, h3⟩ hrec
          · exact Or.inr (Or.inl (by simpa using h2))
        · exact Or.inl (by simpa using h1)
      rw [handleEvent_fst_press_abortOrPlain m ev iter hp h']
  · rw [if_neg hp]
    by_cases hr : ev.etype = Release
    · rw [if_pos hr, handleEvent_fst_release m ev iter hr]
    · rw [if_neg hr, handleEvent_fst_other m ev iter hp hr]

/-- Membership in the pressed set after one event. -/
theorem mem_pressed_handleEvent (m : Manager) (ev : Event) (iter : List GoStr)
    (k : GoStr) :
    k ∈ (HandleEvent m ev iter).1.pressed ↔
      (ev.etype = Press ∧ k = ev.Key) ∨
      (k ∈ m.pressed ∧ ¬(ev.etype = Release ∧ k = ev.Key)) := by
  rw [pressed_handleEvent]
  by_cases hp : ev.etype = Press
  · have hr : ¬ ev.etype = Release := by rw [hp]; exact press_ne_release
    rw [if_pos hp, mem_insertKey]
    constructor
    · rintro (h | h)
      · exact Or.inr ⟨h, fun hc => hr hc.1⟩
      · exact Or.inl ⟨hp, h⟩
    · rintro (⟨_, h⟩ | ⟨h, _⟩)
      · exact Or.inr h
      · exact Or.inl h
  · rw [if_neg hp]
    by_cases hr : ev.etype = Release
    · rw [if_pos hr]
      unfold removeKey
      rw [List.mem_filter]
      constructor
      · rintro ⟨h1, h2⟩
        exact Or.inr ⟨h1, fun hc => (of_decide_eq_true h2) hc.2⟩
      · rintro (⟨h, _⟩ | ⟨h1, h2⟩)
        · exact absurd h hp
        · exact ⟨h1, decide_eq_true (fun he => h2 ⟨hr, he⟩)⟩
    · rw [if_neg hr]
      constructor
      · intro h
        exact Or.inr ⟨h, fun hc => hr hc.1⟩
      · rintro (⟨h, _⟩ | ⟨h, _⟩)
        · exact absurd h hp
        · exact h

/-- Splitting a cons off a "press with no later release" decomposition. -/
theorem exists_press_cons (p : Event × List GoStr) (rest : List (Event × List GoStr))
    (k : GoStr) :
    (∃ pre e suf, p :: rest = pre ++ e :: suf ∧ e.1.etype = Press ∧ k = e.1.Key ∧
        ∀ e' ∈ suf, ¬(e'.1.etype = Release ∧ k = e'.1.Key)) ↔
      (p.1.etype = Press ∧ k = p.1.Key ∧
        ∀ e' ∈ rest, ¬(e'.1.etype = Release ∧ k = e'.1.Key)) ∨
      (∃ pre e suf, rest = pre ++ e :: suf ∧ e.1.etype = Press ∧ k = e.1.Key ∧
        ∀ e' ∈ suf, ¬(e'.1.etype = Release ∧ k = e'.1.Key)) := by
  constructor
  · rintro ⟨pre, e, suf, heq, hpress, hkey, hsuf⟩
    cases pre with
    | nil =>
      rw [List.nil_append] at heq
      injection heq with h1 h2
      subst h1
      subst h2
      exact Or.inl ⟨hpress, hkey, hsuf⟩
    | cons q pre' =>
      rw [List.cons_append] at heq
      injection heq with h1 h2
      subst h1
      exact Or.inr ⟨pre', e, suf, h2, hpress, hkey, hsuf⟩
  · rintro (⟨hpress, hkey, hrest⟩ | ⟨pre, e, suf, heq, hpress, hkey, hsuf⟩)
    · exact ⟨[], p, rest, rfl, hpress, hkey, hrest⟩
    · exact ⟨p :: pre, e, suf, by rw [heq, List.cons_append], hpress, hkey, hsuf⟩

/-- Propositional shape of the induction step of `mem_pressed_runEvents`. -/
theorem run_step_logic (A P K M R B : Prop) :
    (A ∨ (((P ∧ K) ∨ (M ∧ ¬(R ∧ K))) ∧ B)) ↔
      (((P ∧ K ∧ B) ∨ A) ∨ (M ∧ (¬(R ∧ K) ∧ B))) := by
  tauto

/-- Membership in the pressed set after a whole run: `k` is pressed at the
end exactly when some Press of `k` has no later Release of `k`, or `k` was
pressed initially and never released. -/
theorem mem_pressed_runEvents (evs : List (Event × List GoStr)) (m : Manager)
    (k : GoStr) :
    k ∈ (runEvents m evs).1.pressed ↔
      (∃ pre e suf, evs = pre ++ e :: suf ∧ e.1.etype = Press ∧ k = e.1.Key ∧
          ∀ e' ∈ suf, ¬(e'.1.etype = Release ∧ k = e'.1.Key)) ∨
      (k ∈ m.pressed ∧ ∀ e' ∈ evs, ¬(e'.1.etype = Release ∧ k = e'.1.Key)) := by
  induction evs generalizing m with
  | nil =>
    simp [runEvents]
  | cons p rest ih =>
    rcases p with ⟨ev, it⟩
    have hrun : (runEvents m ((ev, it) :: rest)).1 =
        (runEvents (HandleEvent m ev it).1 rest).1 := by
      simp [runEvents]
    rw [hrun, ih, exists_press_cons, mem_pressed_handleEvent, List.forall_mem_cons]
    exact run_step_logic _ _ _ _ _ _

/-- C6: starting from a fresh manager, after any sequence of Pressed and
Released events (no Held), a key is in the pressed set exactly when it has
been pressed and not subsequently released — a characterization that depends
only on the per-key subsequence of events, hence is independent of the order
in which distinct keys were pressed. -/
theorem pressedSet_characterization (evs : List (Event × List GoStr)) (k : GoStr)
    (_hkinds : ∀ e ∈ evs, e.1.etype = Press ∨ e.1.etype = Release) :
    k ∈ (runEvents NewManager evs).1.pressed ↔
      ∃ pre e suf, evs = pre ++ e :: suf ∧ e.1.etype = Press ∧ k = e.1.Key ∧
        ∀ e' ∈ suf, ¬(e'.1.etype = Release ∧ k = e'.1.Key) := by
  rw [mem_pressed_runEvents]
  simp [NewManager]

/-- Witness for `pressedSet_characterization` at the sequence
[press A, press B, release A]: B remains pressed (decomposition at its press
with no later release of B), A does not. -/
theorem pressedSet_characterization_witness :
    (∀ e ∈ [(pressEv (gs "KEY_A"), ([] : List GoStr)), (pressEv (gs "KEY_B"), []),
        (releaseEv (gs "KEY_A"), [])],
      e.1.etype = Press ∨ e.1.etype = Release) ∧
    gs "KEY_B" ∈ (runEvents NewManager
      [(pressEv (gs "KEY_A"), []), (pressEv (gs "KEY_B"), []),
       (releaseEv (gs "KEY_A"), [])]).1.pressed := by
  refine ⟨by decide, ?_⟩
  refine (pressedSet_characterization
    [(pressEv (gs "KEY_A"), []), (pressEv (gs "KEY_B"), []),
     (releaseEv (gs "KEY_A"), [])] (gs "KEY_B") (by decide)).mpr ?_
  refine ⟨[(pressEv (gs "KEY_A"), [])], (pressEv (gs "KEY_B"), []),
    [(releaseEv (gs "KEY_A"), [])], rfl, rfl, rfl, ?_⟩
  intro e' he'
  have : e' = (releaseEv (gs "KEY_A"), []) := by simpa using he'
  rw [this]
  rintro ⟨_, hkk⟩
  exact absurd hkk (by decide)

end Keyboard
